import Mathlib

/-!
Verification of the QuickTips extractor (`quicktips.py`) and evaluator
(`evaluate_quicktips.py`).

Python strings are modelled as lists of Unicode code points (`PyStr := List Nat`).
Regex-style global substitutions and `str.replace` consume a variable number of
characters per step, so they are implemented by structural recursion on a fuel
argument initialised to the string length (which always suffices, since every
step consumes at least one character); this keeps every definition
kernel-computable.
-/

/-- A Python string as its list of Unicode code points. -/
abbrev PyStr := List Nat

/-- Code points of a Lean string literal, used to state concrete examples. -/
def encode (s : String) : PyStr := s.data.map Char.toNat

/-- Python regex `\s`: space, tab, LF, VT, FF, CR. -/
def isSpaceB (n : Nat) : Bool := n == 32 || n == 9 || n == 10 || n == 11 || n == 12 || n == 13

/-- Python regex `\d` (ASCII digits, as matched on these inputs). -/
def isDigitB (n : Nat) : Bool := 48 ≤ n && n ≤ 57

/-- Characters kept by `normalize_team_name`'s filter `[^a-z0-9 ]+`: the
complement class is everything outside lowercase ASCII letters, digits, space. -/
def isAllowedB (n : Nat) : Bool := (97 ≤ n && n ≤ 122) || (48 ≤ n && n ≤ 57) || n == 32

/-- Python `str.lower`, modelled on the ASCII and Latin-1 letter ranges (the
team-name inputs); other code points are left unchanged, which agrees with the
source behaviour wherever the result feeds a comparison or the ASCII filter. -/
def lowerChar (n : Nat) : Nat :=
  if 65 ≤ n ∧ n ≤ 90 then n + 32
  else if 192 ≤ n ∧ n ≤ 222 ∧ n ≠ 215 then n + 32
  else n

/-- Python `s.lower()` on a whole string. -/
def pyLower (s : PyStr) : PyStr := s.map lowerChar

/-- Fuel-driven body of `re.sub(cls+, " ", s)` for a one-character-class
pattern `cls` matching `p`: each maximal run of `p`-characters becomes one
space. Fuel `≥ s.length` always suffices. -/
def subRunsF (p : Nat → Bool) : Nat → PyStr → PyStr
  | _, [] => []
  | 0, s => s
  | f + 1, c :: cs =>
    if p c then 32 :: subRunsF p f (cs.dropWhile p)
    else c :: subRunsF p f cs

/-- `re.sub` of a maximal run of `p`-characters by a single space. -/
def subRuns (p : Nat → Bool) (s : PyStr) : PyStr := subRunsF p s.length s

/-- Python `str.strip()`: drop leading and trailing whitespace. -/
def pyStrip (s : PyStr) : PyStr :=
  ((s.dropWhile isSpaceB).reverse.dropWhile isSpaceB).reverse

/-- `normspace` from quicktips.py line 39: `re.sub(r"\s+", " ", s).strip()`. -/
def normspace (s : PyStr) : PyStr := pyStrip (subRuns isSpaceB s)

/-- Does `s` start with `pat`? (used to model `str.replace` scanning). -/
def startsWithPat : PyStr → PyStr → Bool
  | [], _ => true
  | _ :: _, [] => false
  | p :: ps, c :: cs => p == c && startsWithPat ps cs

/-- Does `pat` occur as a contiguous substring of `s`? -/
def containsPat (pat : PyStr) : PyStr → Bool
  | [] => pat.isEmpty
  | c :: cs => startsWithPat pat (c :: cs) || containsPat pat cs

/-- Fuel-driven body of Python `s.replace(pat, "")` (left-to-right,
non-overlapping). Fuel `≥ s.length` suffices when `pat ≠ []`. -/
def removeAllF (pat : PyStr) : Nat → PyStr → PyStr
  | _, [] => []
  | 0, s => s
  | f + 1, c :: cs =>
    if !pat.isEmpty && startsWithPat pat (c :: cs) then
      removeAllF pat f ((c :: cs).drop pat.length)
    else c :: removeAllF pat f cs

/-- Python `s.replace(pat, "")`. -/
def removeAll (pat : PyStr) (s : PyStr) : PyStr := removeAllF pat s.length s

/-- The numeric value of a digit string (`int` on a matched group). -/
def digitsVal (l : PyStr) : Nat := l.foldl (fun a d => a * 10 + (d - 48)) 0

/-- One backtracking attempt of `(\d{1,3})\s*%` at the head of `s`, taking
exactly `k` digits. -/
def percAtWith (k : Nat) (s : PyStr) : Option Nat :=
  if k ≤ s.length ∧ (s.take k).all isDigitB ∧ ((s.drop k).dropWhile isSpaceB).head? = some 37
  then some (digitsVal (s.take k))
  else none

/-- Match of `PERC_RE = (\d{1,3})\s*%` anchored at the head of `s`: the greedy
quantifier tries three digits, then two, then one. -/
def matchPercAt (s : PyStr) : Option Nat :=
  match percAtWith 3 s with
  | some v => some v
  | none =>
    match percAtWith 2 s with
    | some v => some v
    | none => percAtWith 1 s

/-- `PERC_RE.search`: leftmost match of `(\d{1,3})\s*%`. -/
def searchPerc : PyStr → Option Nat
  | [] => none
  | c :: cs =>
    match matchPercAt (c :: cs) with
    | some v => some v
    | none => searchPerc cs

/-- `parse_percent` from quicktips.py lines 42-49. -/
def parse_percent (s : PyStr) : Option Nat :=
  match searchPerc s with
  | none => none
  | some v => if 0 ≤ v ∧ v ≤ 100 then some v else none

/-- Streak scan of `is_quicktips_table` lines 60-67: count consecutive
percent cells, answer true as soon as the streak reaches 3. -/
def streakAny : Nat → List PyStr → Bool
  | _, [] => false
  | streak, c :: cs =>
    if (parse_percent c).isSome then
      if 3 ≤ streak + 1 then true else streakAny (streak + 1) cs
    else streakAny 0 cs

/-- `is_quicktips_table` from quicktips.py lines 51-68, over the table's rows
of raw td texts. -/
def is_quicktips_table (rows : List (List PyStr)) : Bool :=
  if rows.isEmpty then false
  else
    (rows.take 6).any fun tr =>
      let cells := tr.map normspace
      if cells.length < 5 then false else streakAny 0 cells

/-- `DATE_TOKEN_RE = ^\s*\d{1,2}\.\d{1,2}\s*$` as a total match test (the
greedy `\d{1,2}` forces the full digit run to have length 1 or 2). -/
def isDateToken (s : PyStr) : Bool :=
  let s1 := s.dropWhile isSpaceB
  let d1 := s1.takeWhile isDigitB
  let r1 := s1.dropWhile isDigitB
  decide (1 ≤ d1.length) && decide (d1.length ≤ 2) && r1.head? == some 46 &&
    (let s2 := r1.tail
     let d2 := s2.takeWhile isDigitB
     decide (1 ≤ d2.length) && decide (d2.length ≤ 2) && (s2.dropWhile isDigitB).all isSpaceB)

/-- `TIME_TOKEN_RE = ^\s*\d{1,2}:\d{2}\s*$` as a total match test. -/
def isTimeToken (s : PyStr) : Bool :=
  let s1 := s.dropWhile isSpaceB
  let d1 := s1.takeWhile isDigitB
  let r1 := s1.dropWhile isDigitB
  decide (1 ≤ d1.length) && decide (d1.length ≤ 2) && r1.head? == some 58 &&
    (let s2 := r1.tail
     decide (2 ≤ s2.length) && (s2.take 2).all isDigitB && (s2.drop 2).all isSpaceB)

/-- Character class `[0-9%:|\-–.]` of the all-symbols noise test. -/
def isSymChar (n : Nat) : Bool :=
  isDigitB n || n == 37 || n == 58 || n == 124 || n == 45 || n == 8211 || n == 46

/-- `is_noise_cell` from quicktips.py lines 70-79. -/
def is_noise_cell (c : PyStr) : Bool :=
  decide (c.length ≤ 1) || isDateToken c || isTimeToken c || (!c.isEmpty && c.all isSymChar)

/-- Letter class `[A-Za-zÁ-Žá-ž]` by code point. -/
def isLetterChar (n : Nat) : Bool :=
  (65 ≤ n && n ≤ 90) || (97 ≤ n && n ≤ 122) || (193 ≤ n && n ≤ 381) || (225 ≤ n && n ≤ 382)

/-- `plausible_team_text` from quicktips.py lines 81-86. -/
def plausible_team_text (c : PyStr) : Bool :=
  !is_noise_cell c && c.any isLetterChar && decide (3 ≤ (pyStrip c).length)

/-- `DATE_PREFIX_RE.sub("", s)`: strip one leading `\s*\d{1,2}\.\d{1,2}\s+`
if present (the pattern is anchored, so at most one occurrence matches). -/
def stripLeadingDate (s : PyStr) : PyStr :=
  let s1 := s.dropWhile isSpaceB
  let d1 := s1.takeWhile isDigitB
  let r1 := s1.dropWhile isDigitB
  if 1 ≤ d1.length ∧ d1.length ≤ 2 ∧ r1.head? = some 46 then
    let s2 := r1.tail
    let d2 := s2.takeWhile isDigitB
    let r2 := s2.dropWhile isDigitB
    if 1 ≤ d2.length ∧ d2.length ≤ 2 ∧ r2.head?.any isSpaceB then
      r2.dropWhile isSpaceB
    else s
  else s

/-- Dash code points matched by `[-–]`. -/
def isDashB (n : Nat) : Bool := n == 45 || n == 8211

/-- Fuel-driven body of `DASH_FIX_RE.sub(" – ", s)` where
`DASH_FIX_RE = \s*[-–]\s*`: a match starts at a position exactly when skipping
spaces from it reaches a dash. -/
def subDashF : Nat → PyStr → PyStr
  | _, [] => []
  | 0, s => s
  | f + 1, c :: cs =>
    let t := (c :: cs).dropWhile isSpaceB
    if t.head?.any isDashB then 32 :: 8211 :: 32 :: subDashF f (t.tail.dropWhile isSpaceB)
    else c :: subDashF f cs

/-- `DASH_FIX_RE.sub(" – ", s)`: normalise every dash (with surrounding
spaces) to the canonical separator. -/
def subDash (s : PyStr) : PyStr := subDashF s.length s

/-- `clean_match_name` from quicktips.py lines 88-93. -/
def clean_match_name (s : PyStr) : PyStr := normspace (subDash (stripLeadingDate s))

/-- Candidate team cells of `extract_teams_from_cells` lines 97-104: drop
percent-run cells, normalise space, keep plausible team text. -/
def candidateCells (cells : List PyStr) (perc : List Nat) : List PyStr :=
  cells.enum.filterMap fun ic =>
    if ic.1 ∈ perc then none
    else
      let c := normspace ic.2
      if plausible_team_text c then some c else none

/-- Body of the adjacent-deduplication loop (lines 106-109), carrying the
last kept cell. -/
def dedupAdjGo (prev : PyStr) : List PyStr → List PyStr
  | [] => []
  | c :: cs => if pyLower c = pyLower prev then dedupAdjGo prev cs else c :: dedupAdjGo c cs

/-- Adjacent case-insensitive deduplication of lines 106-109 (rendering of the
append loop: a cell is kept unless its lowercasing equals the last kept one). -/
def dedupAdj : List PyStr → List PyStr
  | [] => []
  | c :: cs => c :: dedupAdjGo c cs

/-- The candidates surviving noise filtering and adjacent deduplication. -/
def survivors (cells : List PyStr) (perc : List Nat) : List PyStr :=
  dedupAdj (candidateCells cells perc)

/-- `home = dedup[0]` (line 114). -/
def chosenHome (d : List PyStr) : PyStr := d.headD []

/-- `away` selection of lines 115-121: last candidate differing
case-insensitively from home, with the `if not away` fallback to `dedup[1]`
(or `dedup[0]` when only one candidate exists). -/
def chosenAway (d : List PyStr) : PyStr :=
  match d with
  | [] => []
  | home :: rest =>
    match (home :: rest).reverse.find? (fun c => !decide (pyLower c = pyLower home)) with
    | some c =>
      if c = [] then (match rest with | r :: _ => r | [] => home) else c
    | none => match rest with | r :: _ => r | [] => home

/-- `extract_teams_from_cells` from quicktips.py lines 95-123. -/
def extract_teams_from_cells (cells : List PyStr) (perc : List Nat) : PyStr :=
  match survivors cells perc with
  | [] => [63]
  | home :: rest =>
    clean_match_name (chosenHome (home :: rest) ++ [32, 8211, 32] ++ chosenAway (home :: rest))

/-- One extracted ticket row. -/
structure Ticket where
  matchName : PyStr
  tip : String
  p1 : Nat
  pX : Nat
  p2 : Nat
deriving DecidableEq, Repr

/-- Split a list of indices into maximal runs of consecutive values, as the
`itertools.groupby(enumerate(idx), key = pos - val)` trick does (for a
strictly increasing index list the groups are exactly the consecutive runs). -/
def splitRuns : List Nat → List (List Nat)
  | [] => []
  | [x] => [[x]]
  | x :: y :: rest =>
    match splitRuns (y :: rest) with
    | [] => [[x]]
    | r :: rs => if y = x + 1 then (x :: r) :: rs else [x] :: r :: rs

/-- Selection of `best_run` (lines 142-146): first run of length ≥ 3 that is
strictly longer than the best so far. -/
def pickBestRun (runs : List (List Nat)) : List Nat :=
  runs.foldl (fun best r => if 3 ≤ r.length ∧ best.length < r.length then r else best) []

/-- Python `max(probs, key=probs.get)` over the insertion-ordered dict: keep
the current key unless a later value is strictly greater. -/
def pyMaxKey : String × Nat → List (String × Nat) → String
  | kv, [] => kv.1
  | kv, (k2, v2) :: rest => if kv.2 < v2 then pyMaxKey (k2, v2) rest else pyMaxKey kv rest

/-- Row-to-ticket extraction: the body of the row loop of `parse_quicktips`
(quicktips.py lines 135-166), from the raw td texts of one row. -/
def extractRow (tds : List PyStr) : Option Ticket :=
  if tds.length < 5 then none
  else
    let cells := tds.map normspace
    let percIdx := (cells.enum.filter (fun ic => (parse_percent ic.2).isSome)).map Prod.fst
    let run3 := pickBestRun (splitRuns percIdx)
    if run3.length < 3 then none
    else
      let p1 := (parse_percent (cells.getD (run3.getD 0 0) [])).getD 0
      let pX := (parse_percent (cells.getD (run3.getD 1 0) [])).getD 0
      let p2 := (parse_percent (cells.getD (run3.getD 2 0) [])).getD 0
      some { matchName := extract_teams_from_cells cells run3,
             tip := pyMaxKey ("1", p1) [("X", pX), ("2", p2)],
             p1 := p1, pX := pX, p2 := p2 }

/-- Deduplication key `(r["match"], r["tip"])` (line 171). -/
def dkey (t : Ticket) : PyStr × String := (t.matchName, t.tip)

/-- Body of the seen-set deduplication loop (lines 168-175); the Python `set`
is modelled as the list of keys inserted so far. -/
def dedupeLoop (seen : List (PyStr × String)) : List Ticket → List Ticket
  | [] => []
  | r :: rest =>
    if dkey r ∈ seen then dedupeLoop seen rest
    else r :: dedupeLoop (dkey r :: seen) rest

/-- The final deduplication pass of `parse_quicktips` (lines 168-175). -/
def dedupe (rows : List Ticket) : List Ticket := dedupeLoop [] rows

/-- Modelled from the spec (§4.4): keep the first occurrence of each distinct
(match, tip) pair, dropping later duplicates — an element survives exactly
when no earlier element carries its key. -/
def specKeepFirst : List Ticket → List Ticket
  | [] => []
  | r :: rest => r :: (specKeepFirst rest).filter (fun x => dkey x ≠ dkey r)

/-- `parse_quicktips` over the document's tables, each given as its rows of
raw td texts (HTML parsing itself is the external collaborator). -/
def parse_quicktips (tables : List (List (List PyStr))) : List Ticket :=
  dedupe ((tables.filter is_quicktips_table).flatMap fun t => t.filterMap extractRow)

/-- Removed token `" fc"` of `normalize_team_name`. -/
def TOK_FC : PyStr := [32, 102, 99]

/-- Removed token `"cf "` of `normalize_team_name`. -/
def TOK_CF : PyStr := [99, 102, 32]

/-- Removed token `" sc"` of `normalize_team_name`. -/
def TOK_SC : PyStr := [32, 115, 99]

/-- Removed token `" afc"` of `normalize_team_name`. -/
def TOK_AFC : PyStr := [32, 97, 102, 99]

/-- `normalize_team_name` from evaluate_quicktips.py lines 53-63: lowercase,
remove the four club tokens in order, replace runs outside `[a-z0-9 ]` by a
space, collapse whitespace, strip. -/
def normalize_team_name (s : PyStr) : PyStr :=
  pyStrip (subRuns isSpaceB (subRuns (fun n => !isAllowedB n)
    (removeAll TOK_AFC (removeAll TOK_SC (removeAll TOK_CF (removeAll TOK_FC (pyLower s)))))))

/-- Does the normalised string still contain one of the four removed tokens? -/
def hasTok (s : PyStr) : Bool :=
  containsPat TOK_FC s || containsPat TOK_CF s || containsPat TOK_SC s || containsPat TOK_AFC s

/-- Python `s.split(sep)` for a one-character separator. -/
def splitOn (sep : Nat) : PyStr → List PyStr
  | [] => [[]]
  | x :: xs =>
    match splitOn sep xs with
    | [] => [[x]]
    | h :: t => if x = sep then [] :: h :: t else (x :: h) :: t

/-- `split_match` from evaluate_quicktips.py lines 65-75. -/
def split_match (s : PyStr) : PyStr × PyStr :=
  let parts :=
    if 8211 ∈ s then splitOn 8211 s
    else if 45 ∈ s then splitOn 45 s
    else [s, []]
  (pyStrip (parts.headD []), pyStrip (parts.getD 1 []))

/-- One match record of the Football-Data feed, with the fields the evaluator
reads: `status`, team names, and the full-time score fields. -/
structure ResultRecord where
  status : String
  homeName : PyStr
  awayName : PyStr
  ftHome : Option Int
  ftAway : Option Int
deriving DecidableEq, Repr

/-- Average fuzzy score of one candidate (evaluate_quicktips.py line 101),
with the external `fuzz.token_sort_ratio` left as a parameter `sim`; the float
average of two integer scores is modelled exactly in `ℚ`. -/
def candScore (sim : PyStr → PyStr → Nat) (name : PyStr) (m : ResultRecord) : ℚ :=
  ((sim (normalize_team_name (split_match name).1) (normalize_team_name m.homeName) : ℚ) +
   (sim (normalize_team_name (split_match name).2) (normalize_team_name m.awayName) : ℚ)) / 2

/-- The best-candidate scan of `find_best_match` lines 95-104: replace the
running best exactly when the new score is strictly greater. -/
def fbmLoop (sim : PyStr → PyStr → Nat) (name : PyStr) :
    Option ResultRecord × ℚ → List ResultRecord → Option ResultRecord × ℚ
  | st, [] => st
  | (best, bs), m :: rest =>
    if bs < candScore sim name m then fbmLoop sim name (some m, candScore sim name m) rest
    else fbmLoop sim name (best, bs) rest

/-- `find_best_match` from evaluate_quicktips.py lines 86-105: threshold 70,
result score truncated with `int` (a floor, since it is only applied to
non-negative scores). -/
def find_best_match (sim : PyStr → PyStr → Nat) (name : PyStr) (results : List ResultRecord) :
    Option ResultRecord × Int :=
  let r := fbmLoop sim name (none, -1) results
  ((if (70 : ℚ) ≤ r.2 then r.1 else none), (if (0 : ℚ) ≤ r.2 then ⌊r.2⌋ else 0))

/-- `decide_outcome_1x2` from evaluate_quicktips.py lines 107-117. -/
def decide_outcome_1x2 (m : ResultRecord) : String :=
  match m.ftHome, m.ftAway with
  | some hg, some ag => if ag < hg then "1" else if hg < ag then "2" else "X"
  | _, _ => "?"

/-- `status_done` from evaluate_quicktips.py lines 126-128. -/
def status_done (m : ResultRecord) : Bool :=
  (m.status == "FINISHED" || m.status == "AWARDED") && m.ftHome.isSome

/-- Outcome symbol computed by `main` (lines 204-217) for a matched record:
`decide_outcome_1x2` when the record is final, otherwise `"?"`. -/
def resolveSymbol (m : ResultRecord) : String :=
  if status_done m then decide_outcome_1x2 m else "?"

/-- One CSV ticket row as the evaluator reads it back. -/
structure EvalTicket where
  matchName : PyStr
  tip : String
deriving DecidableEq, Repr

/-- Python whitespace characters at the `Char` level (for `str.strip`). -/
def isPyWsChar (c : Char) : Bool :=
  c == ' ' || c == '\t' || c == '\n' || c.toNat == 13 || c.toNat == 11 || c.toNat == 12

/-- `str(row.tip).strip().upper()` from `main` (line 194); `upper` is modelled
on ASCII, which covers the tip alphabet 1/X/2. -/
def tipNorm (t : EvalTicket) : String :=
  String.mk (((t.tip.data.dropWhile isPyWsChar).reverse.dropWhile isPyWsChar).reverse.map Char.toUpper)

/-- One iteration of the evaluation loop of `main` (lines 192-217), updating
the (correct, incorrect, pending) counters. -/
def evalCountsStep (sim : PyStr → PyStr → Nat) (results : List ResultRecord)
    (acc : Nat × Nat × Nat) (t : EvalTicket) : Nat × Nat × Nat :=
  match (find_best_match sim t.matchName results).1 with
  | none => (acc.1, acc.2.1, acc.2.2 + 1)
  | some m =>
    if status_done m then
      if decide_outcome_1x2 m = tipNorm t then (acc.1 + 1, acc.2.1, acc.2.2)
      else (acc.1, acc.2.1 + 1, acc.2.2)
    else (acc.1, acc.2.1, acc.2.2 + 1)

/-- The `(ok, bad, pend)` counters after the evaluation loop of `main`. -/
def evalCounts (sim : PyStr → PyStr → Nat) (results : List ResultRecord)
    (tickets : List EvalTicket) : Nat × Nat × Nat :=
  tickets.foldl (evalCountsStep sim results) (0, 0, 0)

/-- Is a ticket resolved (matched to a final record) by the evaluation loop? -/
def isResolved (sim : PyStr → PyStr → Nat) (results : List ResultRecord) (t : EvalTicket) : Bool :=
  match (find_best_match sim t.matchName results).1 with
  | some m => status_done m
  | none => false

/-- Accuracy formula of `main` line 242:
`(ok / (ok + bad) * 100.0) if (ok + bad) else 0.0`, float arithmetic modelled
in `ℚ`. -/
def accuracyOf (okc badc : Nat) : ℚ :=
  if okc + badc ≠ 0 then (okc : ℚ) / ((okc : ℚ) + (badc : ℚ)) * 100 else 0

/-- Does a cell list contain a run of at least 3 consecutive cells parsing as
valid percents? (spec-side notion for the table heuristic). -/
def hasRun3 (cells : List PyStr) : Prop :=
  ∃ i, i + 3 ≤ cells.length ∧
    ∀ j < 3, (parse_percent (cells.getD (i + j) [])).isSome = true

/-- The first `n` cells all parse as valid percents (spec-side helper for the
streak analysis). -/
def pfxPerc (n : Nat) (cells : List PyStr) : Prop :=
  n ≤ cells.length ∧ ∀ j < n, (parse_percent (cells.getD j [])).isSome = true

/-! Helper lemmas about the fuel-driven string operations. -/

/-- Adjacent characters never both match `p` (no two consecutive `p`-runs). -/
def nonAdj (p : Nat → Bool) (a b : Nat) : Prop := ¬(p a = true ∧ p b = true)

theorem subRunsF_nil (p : Nat → Bool) (f : Nat) : subRunsF p f [] = [] := by
  cases f <;> rfl

theorem removeAllF_nil (pat : PyStr) (f : Nat) : removeAllF pat f [] = [] := by
  cases f <;> rfl

theorem dropWhile_length_le (p : Nat → Bool) (l : PyStr) :
    (l.dropWhile p).length ≤ l.length :=
  (List.dropWhile_sublist p).length_le

theorem head?_dropWhile_false (p : Nat → Bool) (l : PyStr) (c : Nat)
    (hc : (l.dropWhile p).head? = some c) : p c = false := by
  have h := List.head?_dropWhile_not p l
  rw [hc] at h
  exact h

theorem subRunsF_mem (p : Nat → Bool) :
    ∀ (f : Nat) (s : PyStr), s.length ≤ f →
      ∀ c ∈ subRunsF p f s, c = 32 ∨ (c ∈ s ∧ p c = false) := by
  intro f
  induction f with
  | zero =>
    intro s hs
    rw [List.length_eq_zero.mp (Nat.le_zero.mp hs)]
    simp [subRunsF_nil]
  | succ f ih =>
    intro s hs c hc
    match s with
    | [] => simp [subRunsF_nil] at hc
    | a :: as =>
      simp only [subRunsF] at hc
      by_cases hp : p a = true
      · rw [if_pos hp] at hc
        rcases List.mem_cons.mp hc with h32 | hmem
        · exact Or.inl h32
        · have hlen : (as.dropWhile p).length ≤ f := by
            have := dropWhile_length_le p as
            simp only [List.length_cons] at hs
            omega
          rcases ih (as.dropWhile p) hlen c hmem with h32 | ⟨hm, hf⟩
          · exact Or.inl h32
          · exact Or.inr ⟨List.mem_cons_of_mem a ((List.dropWhile_sublist p).subset hm), hf⟩
      · rw [if_neg hp] at hc
        rcases List.mem_cons.mp hc with rfl | hmem
        · exact Or.inr ⟨List.mem_cons_self _ _, Bool.not_eq_true _ ▸ hp⟩
        · have hlen : as.length ≤ f := by simp only [List.length_cons] at hs; omega
          rcases ih as hlen c hmem with h32 | ⟨hm, hf⟩
          · exact Or.inl h32
          · exact Or.inr ⟨List.mem_cons_of_mem a hm, hf⟩

theorem subRunsF_eq_self (p : Nat → Bool) :
    ∀ (f : Nat) (s : PyStr), s.length ≤ f →
      (∀ c ∈ s, p c = true → c = 32) → List.Chain' (nonAdj p) s →
      subRunsF p f s = s := by
  intro f
  induction f with
  | zero =>
    intro s hs _ _
    rw [List.length_eq_zero.mp (Nat.le_zero.mp hs)]
    exact subRunsF_nil p 0
  | succ f ih =>
    intro s hs h32 hch
    match s with
    | [] => exact subRunsF_nil p (f + 1)
    | a :: as =>
      simp only [subRunsF]
      by_cases hp : p a = true
      · rw [if_pos hp]
        have ha : a = 32 := h32 a (List.mem_cons_self _ _) hp
        have hdrop : as.dropWhile p = as := by
          match as with
          | [] => rfl
          | b :: bs =>
            have hrel : nonAdj p a b := (List.chain'_cons.mp hch).1
            have hb : p b = false := by
              by_cases hb : p b = true
              · exact absurd ⟨hp, hb⟩ hrel
              · exact Bool.not_eq_true _ ▸ hb
            exact List.dropWhile_cons_of_neg (by simp [hb])
        rw [hdrop, ha]
        have hlen : as.length ≤ f := by simp only [List.length_cons] at hs; omega
        rw [ih as hlen (fun c hc => h32 c (List.mem_cons_of_mem a hc)) hch.tail]
      · rw [if_neg hp]
        have hlen : as.length ≤ f := by simp only [List.length_cons] at hs; omega
        rw [ih as hlen (fun c hc => h32 c (List.mem_cons_of_mem a hc)) hch.tail]

theorem subRunsF_head?_cons (p : Nat → Bool) (f : Nat) (d : Nat) (ds : PyStr)
    (hd : p d = false) : (subRunsF p f (d :: ds)).head? = some d := by
  cases f with
  | zero => rfl
  | succ f => simp [subRunsF, hd]

theorem subRunsF_chain (p : Nat → Bool) :
    ∀ (f : Nat) (s : PyStr), s.length ≤ f → List.Chain' (nonAdj p) (subRunsF p f s) := by
  intro f
  induction f with
  | zero =>
    intro s hs
    rw [List.length_eq_zero.mp (Nat.le_zero.mp hs)]
    simp [subRunsF_nil, List.chain'_nil]
  | succ f ih =>
    intro s hs
    match s with
    | [] => simp [subRunsF_nil, List.chain'_nil]
    | a :: as =>
      have hlen : as.length ≤ f := by simp only [List.length_cons] at hs; omega
      simp only [subRunsF]
      by_cases hp : p a = true
      · rw [if_pos hp]
        have hlen2 : (as.dropWhile p).length ≤ f := le_trans (dropWhile_length_le p as) hlen
        refine List.chain'_cons'.mpr ⟨?_, ih _ hlen2⟩
        intro y hy
        match hdw : as.dropWhile p with
        | [] => rw [hdw] at hy; rw [subRunsF_nil] at hy; simp at hy
        | d :: ds =>
          have hd : p d = false := head?_dropWhile_false p as d (by rw [hdw]; rfl)
          rw [hdw] at hy
          rw [subRunsF_head?_cons p f d ds hd] at hy
          simp only [Option.mem_def, Option.some.injEq] at hy
          subst hy
          exact fun h => by rw [hd] at h; exact absurd h.2 (by simp)
      · rw [if_neg hp]
        refine List.chain'_cons'.mpr ⟨?_, ih as hlen⟩
        intro y _
        exact fun h => hp h.1

theorem removeAllF_eq_self (pat : PyStr) :
    ∀ (f : Nat) (s : PyStr), s.length ≤ f → containsPat pat s = false →
      removeAllF pat f s = s := by
  intro f
  induction f with
  | zero =>
    intro s hs _
    rw [List.length_eq_zero.mp (Nat.le_zero.mp hs)]
    exact removeAllF_nil pat 0
  | succ f ih =>
    intro s hs hocc
    match s with
    | [] => exact removeAllF_nil pat (f + 1)
    | a :: as =>
      simp only [containsPat, Bool.or_eq_false_iff] at hocc
      have hlen : as.length ≤ f := by simp only [List.length_cons] at hs; omega
      simp only [removeAllF, hocc.1, Bool.and_false, if_false, ih as hlen hocc.2]
      simp

theorem subRuns_mem (p : Nat → Bool) (s : PyStr) :
    ∀ c ∈ subRuns p s, c = 32 ∨ (c ∈ s ∧ p c = false) :=
  subRunsF_mem p s.length s le_rfl

theorem subRuns_eq_self (p : Nat → Bool) (s : PyStr)
    (h32 : ∀ c ∈ s, p c = true → c = 32) (hch : List.Chain' (nonAdj p) s) :
    subRuns p s = s :=
  subRunsF_eq_self p s.length s le_rfl h32 hch

theorem subRuns_chain (p : Nat → Bool) (s : PyStr) :
    List.Chain' (nonAdj p) (subRuns p s) :=
  subRunsF_chain p s.length s le_rfl

theorem removeAll_eq_self (pat s : PyStr) (h : containsPat pat s = false) :
    removeAll pat s = s :=
  removeAllF_eq_self pat s.length s le_rfl h

theorem lowerChar_of_allowed (n : Nat) (h : isAllowedB n = true) : lowerChar n = n := by
  simp only [isAllowedB, Bool.or_eq_true, Bool.and_eq_true, decide_eq_true_eq, beq_iff_eq] at h
  unfold lowerChar
  split_ifs with h1 h2 <;> omega

theorem allowed_space_eq32 (n : Nat) (ha : isAllowedB n = true) (hs : isSpaceB n = true) :
    n = 32 := by
  simp only [isAllowedB, isSpaceB, Bool.or_eq_true, Bool.and_eq_true, decide_eq_true_eq,
    beq_iff_eq] at ha hs
  omega

theorem pyStrip_subset (s : PyStr) : ∀ c ∈ pyStrip s, c ∈ s := by
  intro c hc
  unfold pyStrip at hc
  rw [List.mem_reverse] at hc
  have hc2 := (List.dropWhile_sublist _).subset hc
  rw [List.mem_reverse] at hc2
  exact (List.dropWhile_sublist _).subset hc2

theorem dropWhile_eq_self_of_head (p : Nat → Bool) (l : PyStr)
    (h : ∀ c, l.head? = some c → p c = false) : l.dropWhile p = l := by
  match l with
  | [] => rfl
  | a :: as => exact List.dropWhile_cons_of_neg (by simp [h a rfl])

theorem chain'_dropWhile {R : Nat → Nat → Prop} (p : Nat → Bool) (l : PyStr)
    (h : List.Chain' R l) : List.Chain' R (l.dropWhile p) := by
  induction l with
  | nil => simp
  | cons a as ih =>
    by_cases hp : p a = true
    · rw [List.dropWhile_cons_of_pos hp]
      exact ih h.tail
    · rwa [List.dropWhile_cons_of_neg (by simp [hp])]

theorem getLast?_dropWhile_of_some (p : Nat → Bool) (l : PyStr) (c : Nat)
    (hc : (l.dropWhile p).getLast? = some c) : l.getLast? = some c := by
  obtain ⟨t, ht⟩ := List.dropWhile_suffix p (l := l)
  rw [← ht, List.getLast?_append, hc]
  rfl

theorem pyStrip_head?_false (s : PyStr) (c : Nat)
    (hc : (pyStrip s).head? = some c) : isSpaceB c = false := by
  unfold pyStrip at hc
  rw [List.head?_reverse] at hc
  have hc2 := getLast?_dropWhile_of_some _ _ _ hc
  rw [List.getLast?_reverse] at hc2
  exact head?_dropWhile_false _ _ _ hc2

theorem pyStrip_getLast?_false (s : PyStr) (c : Nat)
    (hc : (pyStrip s).getLast? = some c) : isSpaceB c = false := by
  unfold pyStrip at hc
  rw [List.getLast?_reverse] at hc
  exact head?_dropWhile_false _ _ _ hc

theorem pyStrip_eq_self (s : PyStr)
    (h1 : ∀ c, s.head? = some c → isSpaceB c = false)
    (h2 : ∀ c, s.getLast? = some c → isSpaceB c = false) : pyStrip s = s := by
  unfold pyStrip
  rw [dropWhile_eq_self_of_head _ _ h1]
  rw [dropWhile_eq_self_of_head _ _ (fun c hc => h2 c (by rwa [List.head?_reverse] at hc))]
  exact List.reverse_reverse s

theorem chain'_pyStrip {R : Nat → Nat → Prop} (hsymm : ∀ a b, R a b → R b a)
    (l : PyStr) (h : List.Chain' R l) : List.Chain' R (pyStrip l) := by
  unfold pyStrip
  have h1 := chain'_dropWhile isSpaceB l h
  have h2 : List.Chain' R (l.dropWhile isSpaceB).reverse :=
    List.chain'_reverse.mpr (h1.imp hsymm)
  have h3 := chain'_dropWhile isSpaceB _ h2
  exact List.chain'_reverse.mpr (h3.imp hsymm)

theorem nonAdj_symm (p : Nat → Bool) : ∀ a b, nonAdj p a b → nonAdj p b a :=
  fun _ _ h hc => h ⟨hc.2, hc.1⟩

theorem chain'_nonAdj_of_false (p : Nat → Bool) (l : PyStr)
    (h : ∀ c ∈ l, p c = false) : List.Chain' (nonAdj p) l := by
  induction l with
  | nil => exact List.chain'_nil
  | cons a as ih =>
    refine List.chain'_cons'.mpr ⟨?_, ih (fun c hc => h c (List.mem_cons_of_mem a hc))⟩
    intro y _ hc
    rw [h a (List.mem_cons_self _ _)] at hc
    exact absurd hc.1 (by simp)

theorem normalize_allowed (s : PyStr) :
    ∀ c ∈ normalize_team_name s, isAllowedB c = true := by
  intro c hc
  unfold normalize_team_name at hc
  have hc2 := pyStrip_subset _ c hc
  rcases subRuns_mem _ _ c hc2 with rfl | ⟨hmw, _⟩
  · decide
  · rcases subRuns_mem _ _ c hmw with rfl | ⟨_, hfb⟩
    · decide
    · simpa using hfb

theorem normalize_chain (s : PyStr) :
    List.Chain' (nonAdj isSpaceB) (normalize_team_name s) := by
  unfold normalize_team_name
  exact chain'_pyStrip (nonAdj_symm isSpaceB) _ (subRuns_chain _ _)

theorem normalize_head?_false (s : PyStr) (c : Nat)
    (hc : (normalize_team_name s).head? = some c) : isSpaceB c = false :=
  pyStrip_head?_false _ c hc

theorem normalize_getLast?_false (s : PyStr) (c : Nat)
    (hc : (normalize_team_name s).getLast? = some c) : isSpaceB c = false :=
  pyStrip_getLast?_false _ c hc

/-- C1 (counterexample): `normalize` is not idempotent as claimed — on input
`"x.fc"` one pass yields `"x fc"` (the dot becomes a space only after the
`" fc"`-removal step has run), and a second pass then removes `" fc"`,
yielding `"x"`. -/
theorem C1_counterexample :
    ¬ normalize_team_name (normalize_team_name (encode "x.fc")) =
        normalize_team_name (encode "x.fc") := by
  decide

set_option maxHeartbeats 2000000 in
/-- C1 (amended): `normalize` is idempotent on every input whose normalized
form contains none of the removed tokens `" fc"`, `"cf "`, `" sc"`, `" afc"`
as a substring (the counterexample shows the restriction is necessary). -/
theorem C1_normalize_idem_on_tokenfree (s : PyStr)
    (h : hasTok (normalize_team_name s) = false) :
    normalize_team_name (normalize_team_name s) = normalize_team_name s := by
  have hall : ∀ c ∈ normalize_team_name s, isAllowedB c = true := normalize_allowed s
  simp only [hasTok, Bool.or_eq_false_iff] at h
  obtain ⟨⟨⟨hfc, hcf⟩, hsc⟩, hafc⟩ := h
  have h1 : pyLower (normalize_team_name s) = normalize_team_name s := by
    unfold pyLower
    rw [List.map_congr_left (fun a ha => lowerChar_of_allowed a (hall a ha))]
    exact List.map_id _
  have h6 : subRuns (fun n => !isAllowedB n) (normalize_team_name s) = normalize_team_name s :=
    subRuns_eq_self _ _ (fun c hc hcp => absurd hcp (by simp [hall c hc]))
      (chain'_nonAdj_of_false _ _ (fun c hc => by simp [hall c hc]))
  have h7 : subRuns isSpaceB (normalize_team_name s) = normalize_team_name s :=
    subRuns_eq_self _ _ (fun c hc hsp => allowed_space_eq32 c (hall c hc) hsp)
      (normalize_chain s)
  have h8 : pyStrip (normalize_team_name s) = normalize_team_name s :=
    pyStrip_eq_self _ (normalize_head?_false s) (normalize_getLast?_false s)
  have hdef : ∀ t : PyStr, normalize_team_name t =
      pyStrip (subRuns isSpaceB (subRuns (fun n => !isAllowedB n)
        (removeAll TOK_AFC (removeAll TOK_SC (removeAll TOK_CF (removeAll TOK_FC
          (pyLower t))))))) := fun _ => rfl
  rw [hdef (normalize_team_name s), h1, removeAll_eq_self _ _ hfc, removeAll_eq_self _ _ hcf,
    removeAll_eq_self _ _ hsc, removeAll_eq_self _ _ hafc, h6, h7, h8]

/-- C1 (witness): the amended idempotence applied at `"AC Milan FC"`, whose
normalized form `"ac milan"` is free of the removed tokens. -/
theorem C1_witness :
    hasTok (normalize_team_name (encode "AC Milan FC")) = false ∧
    normalize_team_name (normalize_team_name (encode "AC Milan FC")) =
      normalize_team_name (encode "AC Milan FC") :=
  ⟨by decide, C1_normalize_idem_on_tokenfree _ (by decide)⟩

/-- C2: for a matched ResultRecord that is not final — status outside
FINISHED/AWARDED or a full-time score field absent — the resolved symbol is
`"?"` regardless of score fields; in particular any SCHEDULED record resolves
to `"?"`, and a final record resolves by comparing the full-time goals. -/
theorem C2_resolve_final_only (m : ResultRecord) :
    (((m.status ≠ "FINISHED" ∧ m.status ≠ "AWARDED") ∨ m.ftHome = none ∨ m.ftAway = none) →
       resolveSymbol m = "?") ∧
    (m.status = "SCHEDULED" → resolveSymbol m = "?") ∧
    (∀ hg ag : Int, (m.status = "FINISHED" ∨ m.status = "AWARDED") →
       m.ftHome = some hg → m.ftAway = some ag →
       resolveSymbol m = if ag < hg then "1" else if hg < ag then "2" else "X") := by
  refine ⟨?_, ?_, ?_⟩
  · rintro (⟨h1, h2⟩ | hh | ha)
    · simp [resolveSymbol, status_done, h1, h2]
    · simp [resolveSymbol, status_done, hh]
    · unfold resolveSymbol
      split
      · cases hfh : m.ftHome <;> simp [decide_outcome_1x2, ha, hfh]
      · rfl
  · intro hs
    simp [resolveSymbol, status_done, hs]
  · intro hg ag hst hh hha
    have hsd : status_done m = true := by
      rcases hst with h | h <;> simp [status_done, h, hh]
    simp [resolveSymbol, hsd, decide_outcome_1x2, hh, hha]

/-- C2 (witness): a SCHEDULED record with both score fields present still
resolves to `"?"`. -/
theorem C2_witness :
    resolveSymbol
      { status := "SCHEDULED", homeName := [], awayName := [],
        ftHome := some 3, ftAway := some 1 } = "?" :=
  (C2_resolve_final_only _).2.1 rfl

theorem dedupeLoop_idem (l : List Ticket) :
    ∀ seen, dedupeLoop seen (dedupeLoop seen l) = dedupeLoop seen l := by
  induction l with
  | nil => intro seen; rfl
  | cons r rest ih =>
    intro seen
    by_cases h : dkey r ∈ seen
    · simp only [dedupeLoop, if_pos h]
      exact ih seen
    · simp only [dedupeLoop, if_neg h]
      rw [ih (dkey r :: seen)]

theorem dedupeLoop_keepFirst (l : List Ticket) :
    ∀ seen, dedupeLoop seen l =
      (specKeepFirst l).filter (fun x => decide (dkey x ∉ seen)) := by
  induction l with
  | nil => intro seen; rfl
  | cons r rest ih =>
    intro seen
    by_cases h : dkey r ∈ seen
    · simp only [dedupeLoop, if_pos h, specKeepFirst]
      rw [ih seen, List.filter_cons]
      have hr : decide (dkey r ∉ seen) = false := by simp [h]
      rw [hr]
      simp only [Bool.false_eq_true, if_false, List.filter_filter]
      refine List.filter_congr ?_
      intro a _
      by_cases hp : dkey a ∈ seen
      · simp [hp]
      · have hne : dkey a ≠ dkey r := fun hEq => hp (by rw [hEq]; exact h)
        simp [hp, hne]
    · simp only [dedupeLoop, if_neg h, specKeepFirst]
      rw [ih (dkey r :: seen), List.filter_cons]
      have hr : decide (dkey r ∉ seen) = true := by simp [h]
      rw [hr]
      simp only [if_true, List.filter_filter, List.cons.injEq, true_and]
      refine List.filter_congr ?_
      intro a _
      by_cases h1 : dkey a ∈ seen <;> by_cases h2 : dkey a = dkey r <;> simp [h1, h2]

/-- C8: the deduplication pass is idempotent and it agrees with the
spec-side description: it keeps exactly the first occurrence of each distinct
(match, tip) key, in first-seen order, dropping later duplicates. -/
theorem C8_dedupe_idem_keepFirst (x : List Ticket) :
    dedupe (dedupe x) = dedupe x ∧ dedupe x = specKeepFirst x := by
  constructor
  · exact dedupeLoop_idem x []
  · unfold dedupe
    rw [dedupeLoop_keepFirst x []]
    refine List.filter_eq_self.mpr ?_
    intro a _
    simp

theorem dedupAdjGo_chain (l : List PyStr) :
    ∀ prev, List.Chain' (fun a b => pyLower a ≠ pyLower b) (prev :: dedupAdjGo prev l) := by
  induction l with
  | nil => intro prev; simp [dedupAdjGo]
  | cons c cs ih =>
    intro prev
    by_cases h : pyLower c = pyLower prev
    · simp only [dedupAdjGo, if_pos h]
      exact ih prev
    · simp only [dedupAdjGo, if_neg h]
      exact List.chain'_cons.mpr ⟨fun he => h he.symm, ih c⟩

theorem dedupAdj_chain (l : List PyStr) :
    List.Chain' (fun a b => pyLower a ≠ pyLower b) (dedupAdj l) := by
  match l with
  | [] => exact List.chain'_nil
  | c :: cs => exact dedupAdjGo_chain cs c

theorem away_home_of_chain (d : List PyStr)
    (hch : List.Chain' (fun a b => pyLower a ≠ pyLower b) d) :
    (2 ≤ d.length → pyLower (chosenAway d) ≠ pyLower (chosenHome d)) ∧
    (d.length = 1 → chosenAway d = chosenHome d) := by
  match d with
  | [] => constructor <;> intro h <;> simp at h
  | [a] =>
    constructor
    · intro h; simp at h
    · intro _
      simp [chosenAway, chosenHome, List.find?]
  | a :: b :: t =>
    have hab : pyLower a ≠ pyLower b := (List.chain'_cons.mp hch).1
    constructor
    · intro _
      simp only [chosenAway, chosenHome, List.headD]
      cases hf : (a :: b :: t).reverse.find? (fun c => !decide (pyLower c = pyLower a)) with
      | none =>
        simp only [hf]
        exact fun he => hab he.symm
      | some c =>
        have hcne : pyLower c ≠ pyLower a := by simpa using List.find?_some hf
        simp only [hf]
        by_cases hce : c = []
        · rw [if_pos hce]
          exact fun he => hab he.symm
        · rw [if_neg hce]
          exact hcne
    · intro hlen
      simp at hlen

/-- C9: whenever at least two candidate cells survive noise filtering and
adjacent case-insensitive deduplication, the chosen away team differs
case-insensitively from the chosen home team (adjacent deduplication
guarantees the second survivor differs from the first, so the fallback can
never return a duplicate of home); away equals home exactly in the
one-survivor case. -/
theorem C9_away_differs (cells : List PyStr) (perc : List Nat) :
    (2 ≤ (survivors cells perc).length →
      pyLower (chosenAway (survivors cells perc)) ≠
        pyLower (chosenHome (survivors cells perc))) ∧
    ((survivors cells perc).length = 1 →
      chosenAway (survivors cells perc) = chosenHome (survivors cells perc)) :=
  away_home_of_chain (survivors cells perc) (dedupAdj_chain (candidateCells cells perc))

/-- C9 (witness): with the two surviving candidates "Slavia" and "Sparta",
the chosen away side differs case-insensitively from home. -/
theorem C9_witness :
    pyLower (chosenAway (survivors
        [encode "Slavia", encode "Sparta", encode "40%", encode "25%", encode "35%"] [2, 3, 4])) ≠
      pyLower (chosenHome (survivors
        [encode "Slavia", encode "Sparta", encode "40%", encode "25%", encode "35%"] [2, 3, 4])) :=
  (C9_away_differs _ _).1 (by decide)

/-- C7: an out-of-range syntactic percent match parses to `none`; in
extraction the `or 0` default turns a failed parse into the value 0, the
parsed value of a percent cell never exceeds 100, and consequently every
extracted ticket's three probabilities lie in [0, 100] — no error is ever
propagated (the model is a total function by construction). -/
theorem C7_percent_default_zero :
    (∀ (s : PyStr) (v : Nat), searchPerc s = some v → 100 < v → parse_percent s = none) ∧
    (∀ s : PyStr, parse_percent s = none → (parse_percent s).getD 0 = 0) ∧
    (∀ s : PyStr, (parse_percent s).getD 0 ≤ 100) ∧
    (∀ (tds : List PyStr) (t : Ticket), extractRow tds = some t →
      t.p1 ≤ 100 ∧ t.pX ≤ 100 ∧ t.p2 ≤ 100) := by
  have hle : ∀ s : PyStr, (parse_percent s).getD 0 ≤ 100 := by
    intro s
    unfold parse_percent
    cases searchPerc s with
    | none => simp
    | some v =>
      show (if 0 ≤ v ∧ v ≤ 100 then some v else none).getD 0 ≤ 100
      split_ifs with h
      · simpa using h.2
      · simp
  refine ⟨?_, ?_, hle, ?_⟩
  · intro s v hs hv
    unfold parse_percent
    rw [hs]
    show (if 0 ≤ v ∧ v ≤ 100 then some v else none) = none
    rw [if_neg (by omega)]
  · intro s h
    rw [h]
    rfl
  · intro tds t ht
    simp only [extractRow] at ht
    split at ht
    · exact absurd ht (by simp)
    · split at ht
      · exact absurd ht (by simp)
      · have ht2 := Option.some.inj ht
        subst ht2
        exact ⟨hle _, hle _, hle _⟩

/-- C7 (witness): `"150%"` matches syntactically with value 150, parses to
`none`, and the extraction default maps it to 0. -/
theorem C7_witness :
    parse_percent (encode "150%") = none ∧
    (parse_percent (encode "150%")).getD 0 = 0 :=
  ⟨C7_percent_default_zero.1 _ 150 (by decide) (by decide),
   C7_percent_default_zero.2.1 _ (C7_percent_default_zero.1 _ 150 (by decide) (by decide))⟩

theorem pyMaxKey3 (a b c : Nat) :
    ((b ≤ a ∧ c ≤ a) → pyMaxKey ("1", a) [("X", b), ("2", c)] = "1") ∧
    ((a < b ∧ c ≤ b) → pyMaxKey ("1", a) [("X", b), ("2", c)] = "X") ∧
    ((a < c ∧ b < c) → pyMaxKey ("1", a) [("X", b), ("2", c)] = "2") := by
  simp only [pyMaxKey]
  refine ⟨?_, ?_, ?_⟩ <;> intro h <;> split_ifs <;> first | rfl | omega

/-- C3: every extracted ticket's tip is the argmax of (p1, pX, p2) with ties
broken in first-seen order 1 > X > 2 (so "1" wins ties with "X" and "2", and
"X" wins ties with "2"), as computed by the insertion-ordered dict max. -/
theorem C3_tip_argmax (tds : List PyStr) (t : Ticket) (ht : extractRow tds = some t) :
    ((t.pX ≤ t.p1 ∧ t.p2 ≤ t.p1) → t.tip = "1") ∧
    ((t.p1 < t.pX ∧ t.p2 ≤ t.pX) → t.tip = "X") ∧
    ((t.p1 < t.p2 ∧ t.pX < t.p2) → t.tip = "2") := by
  simp only [extractRow] at ht
  split at ht
  · exact absurd ht (by simp)
  · split at ht
    · exact absurd ht (by simp)
    · have ht2 := Option.some.inj ht
      subst ht2
      exact pyMaxKey3 _ _ _

/-- C3 (witness): the sample row extracts a ticket with p1 maximal, and the
theorem yields tip "1" for it. -/
theorem C3_witness :
    extractRow [encode "12.10", encode "Slavia", encode "40%", encode "25%",
        encode "35%", encode "20:00"] =
      some { matchName := encode "Slavia – Slavia", tip := "1", p1 := 40, pX := 25, p2 := 35 } ∧
    Ticket.tip { matchName := encode "Slavia – Slavia", tip := "1", p1 := 40, pX := 25, p2 := 35 } = "1" :=
  ⟨by decide,
   (C3_tip_argmax
      [encode "12.10", encode "Slavia", encode "40%", encode "25%", encode "35%", encode "20:00"]
      { matchName := encode "Slavia – Slavia", tip := "1", p1 := 40, pX := 25, p2 := 35 }
      (by decide)).1 (by decide)⟩

/-- C6: extracting the qualifying row `["12.10", "Slavia", "40%", "25%",
"35%", "20:00"]` yields the ticket with match label "Slavia – Slavia"
(single plausible team cell, away falls back to home), tip "1" and
probabilities (40, 25, 35); the date and time cells are classified as noise,
and exactly one candidate survives. -/
theorem C6_scenarioA :
    extractRow [encode "12.10", encode "Slavia", encode "40%", encode "25%",
        encode "35%", encode "20:00"] =
      some { matchName := encode "Slavia – Slavia", tip := "1", p1 := 40, pX := 25, p2 := 35 } ∧
    is_noise_cell (normspace (encode "12.10")) = true ∧
    is_noise_cell (normspace (encode "20:00")) = true ∧
    survivors ([encode "12.10", encode "Slavia", encode "40%", encode "25%",
        encode "35%", encode "20:00"].map normspace) [2, 3, 4] = [encode "Slavia"] := by
  refine ⟨by decide, by decide, by decide, by decide⟩

theorem pfxPerc_cons (c : PyStr) (cs : List PyStr) (n : Nat) :
    pfxPerc (n + 1) (c :: cs) ↔
      ((parse_percent c).isSome = true ∧ pfxPerc n cs) := by
  constructor
  · rintro ⟨hl, hall⟩
    refine ⟨by simpa using hall 0 (by omega), ?_, fun j hj => ?_⟩
    · simp only [List.length_cons] at hl; omega
    · simpa using hall (j + 1) (by omega)
  · rintro ⟨hc, hl, hall⟩
    refine ⟨by simp only [List.length_cons]; omega, fun j hj => ?_⟩
    cases j with
    | zero => simpa using hc
    | succ j => simpa using hall j (by omega)

theorem pfxPerc_mono (cells : List PyStr) (m n : Nat) (hmn : m ≤ n)
    (h : pfxPerc n cells) : pfxPerc m cells :=
  ⟨le_trans hmn h.1, fun j hj => h.2 j (lt_of_lt_of_le hj hmn)⟩

theorem pfxPerc_three_hasRun3 (cells : List PyStr) (h : pfxPerc 3 cells) :
    hasRun3 cells :=
  ⟨0, by simpa using h.1, fun j hj => by simpa using h.2 j hj⟩

theorem hasRun3_cons (c : PyStr) (cs : List PyStr) :
    hasRun3 (c :: cs) ↔ pfxPerc 3 (c :: cs) ∨ hasRun3 cs := by
  constructor
  · rintro ⟨i, hi, hall⟩
    cases i with
    | zero =>
      left
      exact ⟨by simpa using hi, fun j hj => by simpa using hall j hj⟩
    | succ i =>
      right
      refine ⟨i, by simp only [List.length_cons] at hi; omega, fun j hj => ?_⟩
      have := hall j hj
      rw [show i + 1 + j = (i + j) + 1 by omega] at this
      simpa using this
  · rintro (⟨hl, hall⟩ | ⟨i, hi, hall⟩)
    · exact ⟨0, by simpa using hl, fun j hj => by simpa using hall j hj⟩
    · refine ⟨i + 1, by simp only [List.length_cons]; omega, fun j hj => ?_⟩
      rw [show i + 1 + j = (i + j) + 1 by omega]
      simpa using hall j hj

theorem streakAny_iff (cs : List PyStr) :
    ∀ k, k ≤ 2 → (streakAny k cs = true ↔ pfxPerc (3 - k) cs ∨ hasRun3 cs) := by
  induction cs with
  | nil =>
    intro k hk
    constructor
    · intro h; exact absurd h (by simp [streakAny])
    · rintro (⟨h1, _⟩ | ⟨i, hi, _⟩)
      · simp only [List.length_nil, Nat.le_zero] at h1; omega
      · simp only [List.length_nil] at hi; omega
  | cons c cs ih =>
    intro k hk
    by_cases hc : (parse_percent c).isSome = true
    · by_cases hk3 : 3 ≤ k + 1
      · have hk2 : k = 2 := by omega
        subst hk2
        have hL : streakAny 2 (c :: cs) = true := by simp [streakAny, hc]
        rw [hL]
        simp only [true_iff]
        left
        show pfxPerc (3 - 2) (c :: cs)
        exact (pfxPerc_cons c cs 0).mpr ⟨hc, by simp [pfxPerc]⟩
      · have hstep : streakAny k (c :: cs) = streakAny (k + 1) cs := by
          simp [streakAny, hc, hk3]
        have h3k : 3 - k = (3 - (k + 1)) + 1 := by omega
        rw [hstep, ih (k + 1) (by omega), h3k, pfxPerc_cons, hasRun3_cons]
        have hP3 : pfxPerc 3 (c :: cs) ↔ ((parse_percent c).isSome = true ∧ pfxPerc 2 cs) :=
          pfxPerc_cons c cs 2
        constructor
        · rintro (hp | hw)
          · exact Or.inl ⟨hc, hp⟩
          · exact Or.inr (Or.inr hw)
        · rintro (⟨_, hp⟩ | hP | hw)
          · exact Or.inl hp
          · exact Or.inl (pfxPerc_mono cs (3 - (k + 1)) 2 (by omega) (hP3.mp hP).2)
          · exact Or.inr hw
    · have hcf : (parse_percent c).isSome = false := by simpa using hc
      have hstep : streakAny k (c :: cs) = streakAny 0 cs := by
        simp [streakAny, hcf]
      have h3k : 3 - k = (3 - (k + 1)) + 1 := by omega
      rw [hstep, ih 0 (by omega), h3k, pfxPerc_cons, hasRun3_cons]
      constructor
      · rintro (hp | hw)
        · exact Or.inr (Or.inr (pfxPerc_three_hasRun3 cs (by simpa using hp)))
        · exact Or.inr (Or.inr hw)
      · rintro (⟨hcc, _⟩ | hP | hw)
        · rw [hcf] at hcc; cases hcc
        · rcases (pfxPerc_cons c cs 2).mp hP with ⟨hcc, _⟩
          rw [hcf] at hcc; cases hcc
        · exact Or.inr hw

/-- C5: a table qualifies if and only if, among its first 6 rows, some row
with at least 5 cells contains a run of at least 3 consecutive cells each
parsing as a percent in [0, 100]; rows with fewer than 5 cells are skipped
and a single qualifying row suffices. -/
theorem C5_table_heuristic (rows : List (List PyStr)) :
    is_quicktips_table rows = true ↔
      ∃ tr ∈ rows.take 6, 5 ≤ tr.length ∧ hasRun3 (tr.map normspace) := by
  unfold is_quicktips_table
  by_cases hrows : rows.isEmpty
  · rw [if_pos hrows]
    rw [List.isEmpty_iff.mp hrows]
    simp
  · rw [if_neg hrows]
    rw [List.any_eq_true]
    constructor
    · rintro ⟨tr, htr, hcell⟩
      simp only at hcell
      by_cases hlen : (tr.map normspace).length < 5
      · rw [if_pos hlen] at hcell; cases hcell
      · rw [if_neg hlen] at hcell
        refine ⟨tr, htr, ?_, ?_⟩
        · rw [List.length_map] at hlen; omega
        · rcases (streakAny_iff (tr.map normspace) 0 (by omega)).mp hcell with hp | hw
          · exact pfxPerc_three_hasRun3 _ (by simpa using hp)
          · exact hw
    · rintro ⟨tr, htr, hlen, hrun⟩
      refine ⟨tr, htr, ?_⟩
      simp only
      rw [if_neg (by rw [List.length_map]; omega)]
      exact (streakAny_iff _ 0 (by omega)).mpr (Or.inr hrun)

theorem find_best_match_eq (sim : PyStr → PyStr → Nat) (name : PyStr)
    (results : List ResultRecord) :
    find_best_match sim name results =
      ((if (70 : ℚ) ≤ (fbmLoop sim name (none, -1) results).2
          then (fbmLoop sim name (none, -1) results).1 else none),
       (if (0 : ℚ) ≤ (fbmLoop sim name (none, -1) results).2
          then ⌊(fbmLoop sim name (none, -1) results).2⌋ else 0)) := rfl

theorem fbmLoop_snd (sim : PyStr → PyStr → Nat) (name : PyStr) (l : List ResultRecord) :
    ∀ st : Option ResultRecord × ℚ,
      (fbmLoop sim name st l).2 = (l.map (candScore sim name)).foldl max st.2 := by
  induction l with
  | nil => intro st; rfl
  | cons m rest ih =>
    intro st
    obtain ⟨best, bs⟩ := st
    simp only [fbmLoop, List.map_cons, List.foldl_cons]
    by_cases h : bs < candScore sim name m
    · rw [if_pos h, ih]
      congr 1
      exact (max_eq_right h.le).symm
    · rw [if_neg h, ih]
      congr 1
      exact (max_eq_left (le_of_not_lt h)).symm

theorem foldl_max_init_le (l : List ℚ) : ∀ a : ℚ, a ≤ l.foldl max a := by
  induction l with
  | nil => intro a; simp
  | cons x xs ih =>
    intro a
    simp only [List.foldl_cons]
    exact le_trans (le_max_left a x) (ih _)

theorem foldl_max_mem_le (l : List ℚ) : ∀ (a x : ℚ), x ∈ l → x ≤ l.foldl max a := by
  induction l with
  | nil => intro a x hx; simp at hx
  | cons y ys ih =>
    intro a x hx
    rcases List.mem_cons.mp hx with rfl | hx
    · simp only [List.foldl_cons]
      exact le_trans (le_max_right a x) (foldl_max_init_le ys _)
    · simp only [List.foldl_cons]
      exact ih _ x hx

theorem foldl_max_lt (l : List ℚ) :
    ∀ (a c : ℚ), a < c → (∀ x ∈ l, x < c) → l.foldl max a < c := by
  induction l with
  | nil => intro a c h _; simpa using h
  | cons y ys ih =>
    intro a c ha hall
    simp only [List.foldl_cons]
    exact ih _ c (max_lt ha (hall y (List.mem_cons_self _ _)))
      (fun x hx => hall x (List.mem_cons_of_mem _ hx))

theorem candScore_nonneg (sim : PyStr → PyStr → Nat) (name : PyStr) (m : ResultRecord) :
    (0 : ℚ) ≤ candScore sim name m := by
  unfold candScore
  positivity

theorem fbmLoop_fst_spec (sim : PyStr → PyStr → Nat) (name : PyStr) (l : List ResultRecord) :
    ∀ st : Option ResultRecord × ℚ,
      (∀ m, st.1 = some m → candScore sim name m = st.2) →
      ∀ m, (fbmLoop sim name st l).1 = some m →
        candScore sim name m = (fbmLoop sim name st l).2 ∧ (m ∈ l ∨ st.1 = some m) := by
  induction l with
  | nil =>
    intro st h0 m hm
    exact ⟨h0 m hm, Or.inr hm⟩
  | cons r rest ih =>
    intro st h0 m hm
    obtain ⟨best, bs⟩ := st
    simp only [fbmLoop] at hm ⊢
    by_cases h : bs < candScore sim name r
    · rw [if_pos h] at hm ⊢
      obtain ⟨h1, h2⟩ := ih (some r, candScore sim name r)
        (by rintro m' hm'; cases hm'; rfl) m hm
      refine ⟨h1, ?_⟩
      rcases h2 with h2 | h2
      · exact Or.inl (List.mem_cons_of_mem _ h2)
      · rcases Option.some.inj h2 with rfl
        exact Or.inl (List.mem_cons_self _ _)
    · rw [if_neg h] at hm ⊢
      obtain ⟨h1, h2⟩ := ih (best, bs) h0 m hm
      refine ⟨h1, ?_⟩
      rcases h2 with h2 | h2
      · exact Or.inl (List.mem_cons_of_mem _ h2)
      · exact Or.inr h2

/-- C4: with an empty results list `find_best_match` returns `(none, 0)`;
whenever every candidate's average similarity is below the threshold 70 no
candidate is returned even if the list is non-empty, and the returned score
is the floor of the best average found; a candidate is returned only when it
belongs to the list and its average similarity is at least 70. -/
theorem C4_threshold (sim : PyStr → PyStr → Nat) (name : PyStr)
    (results : List ResultRecord) :
    (results = [] → find_best_match sim name results = (none, 0)) ∧
    ((∀ m ∈ results, candScore sim name m < 70) →
      (find_best_match sim name results).1 = none) ∧
    (results ≠ [] → (∀ m ∈ results, candScore sim name m < 70) →
      (find_best_match sim name results).2 =
        ⌊(results.map (candScore sim name)).foldl max (-1 : ℚ)⌋) ∧
    (∀ rec, (find_best_match sim name results).1 = some rec →
      rec ∈ results ∧ 70 ≤ candScore sim name rec) := by
  refine ⟨?_, ?_, ?_, ?_⟩
  · rintro rfl
    norm_num [find_best_match_eq, fbmLoop]
  · intro hall
    rw [find_best_match_eq]
    have hbs : (fbmLoop sim name (none, -1) results).2 < 70 := by
      rw [fbmLoop_snd]
      refine foldl_max_lt _ _ _ (by norm_num) ?_
      intro x hx
      obtain ⟨m, hm, rfl⟩ := List.mem_map.mp hx
      exact hall m hm
    rw [if_neg (not_le.mpr hbs)]
  · intro hne hall
    rw [find_best_match_eq]
    have h0 : (0 : ℚ) ≤ (fbmLoop sim name (none, -1) results).2 := by
      rw [fbmLoop_snd]
      obtain ⟨m, rest, rfl⟩ := List.exists_cons_of_ne_nil hne
      exact le_trans (candScore_nonneg sim name m)
        (foldl_max_mem_le _ _ _ (List.mem_map_of_mem _ (List.mem_cons_self _ _)))
    rw [if_pos h0, fbmLoop_snd]
  · intro rec hrec
    rw [find_best_match_eq] at hrec
    by_cases h70 : (70 : ℚ) ≤ (fbmLoop sim name (none, -1) results).2
    · rw [if_pos h70] at hrec
      have hm : (fbmLoop sim name (none, -1) results).1 = some rec := hrec
      obtain ⟨hsc, hmem⟩ := fbmLoop_fst_spec sim name results (none, -1)
        (by rintro m hm'; cases hm') rec hm
      rcases hmem with hmem | hmem
      · exact ⟨hmem, by rw [hsc]; exact h70⟩
      · exact absurd hmem (by simp)
    · rw [if_neg h70] at hrec
      exact absurd hrec (by simp)

/-- C4 (witness): with a constant similarity of 60 against one candidate,
the matcher returns no record and the floored best score 60. -/
theorem C4_witness :
    (find_best_match (fun _ _ => 60) (encode "Bayern – Dortmund")
      [{ status := "FINISHED", homeName := encode "FC Bayern", awayName := encode "Dortmund", ftHome := some 2, ftAway := some 1 }]).1 = none ∧
    (find_best_match (fun _ _ => 60) (encode "Bayern – Dortmund")
      [{ status := "FINISHED", homeName := encode "FC Bayern", awayName := encode "Dortmund", ftHome := some 2, ftAway := some 1 }]).2 = 60 := by
  constructor
  · exact (C4_threshold (fun _ _ => 60) (encode "Bayern – Dortmund") _).2.1
      (by intro m hm; rw [List.mem_singleton.mp hm]; norm_num [candScore])
  · refine ((C4_threshold (fun _ _ => 60) (encode "Bayern – Dortmund") _).2.2.1
      (List.cons_ne_nil _ _)
      (by intro m hm; rw [List.mem_singleton.mp hm]; norm_num [candScore])).trans ?_
    norm_num [candScore]

theorem evalCounts_invariant (sim : PyStr → PyStr → Nat) (results : List ResultRecord)
    (ts : List EvalTicket) :
    ∀ acc : Nat × Nat × Nat,
      (ts.foldl (evalCountsStep sim results) acc).1 +
          (ts.foldl (evalCountsStep sim results) acc).2.1 =
        acc.1 + acc.2.1 + (ts.filter (isResolved sim results)).length ∧
      (ts.foldl (evalCountsStep sim results) acc).1 +
          (ts.foldl (evalCountsStep sim results) acc).2.1 +
          (ts.foldl (evalCountsStep sim results) acc).2.2 =
        acc.1 + acc.2.1 + acc.2.2 + ts.length := by
  induction ts with
  | nil => intro acc; simp
  | cons t rest ih =>
    intro acc
    simp only [List.foldl_cons, List.filter_cons]
    rcases hm : (find_best_match sim t.matchName results).1 with _ | m
    · have hstep : evalCountsStep sim results acc t = (acc.1, acc.2.1, acc.2.2 + 1) := by
        simp [evalCountsStep, hm]
      have hres : isResolved sim results t = false := by simp [isResolved, hm]
      rw [hstep, hres]
      obtain ⟨ih1, ih2⟩ := ih (acc.1, acc.2.1, acc.2.2 + 1)
      simp only [Bool.false_eq_true, if_false, List.length_cons] at ih1 ih2 ⊢
      omega
    · by_cases hsd : status_done m = true
      · have hres : isResolved sim results t = true := by simp [isResolved, hm, hsd]
        by_cases heq : decide_outcome_1x2 m = tipNorm t
        · have hstep : evalCountsStep sim results acc t = (acc.1 + 1, acc.2.1, acc.2.2) := by
            simp [evalCountsStep, hm, hsd, heq]
          rw [hstep, hres]
          obtain ⟨ih1, ih2⟩ := ih (acc.1 + 1, acc.2.1, acc.2.2)
          simp only [if_true, List.length_cons] at ih1 ih2 ⊢
          omega
        · have hstep : evalCountsStep sim results acc t = (acc.1, acc.2.1 + 1, acc.2.2) := by
            simp [evalCountsStep, hm, hsd, heq]
          rw [hstep, hres]
          obtain ⟨ih1, ih2⟩ := ih (acc.1, acc.2.1 + 1, acc.2.2)
          simp only [if_true, List.length_cons] at ih1 ih2 ⊢
          omega
      · have hsdf : status_done m = false := by simpa using hsd
        have hres : isResolved sim results t = false := by simp [isResolved, hm, hsdf]
        have hstep : evalCountsStep sim results acc t = (acc.1, acc.2.1, acc.2.2 + 1) := by
          simp [evalCountsStep, hm, hsdf]
        rw [hstep, hres]
        obtain ⟨ih1, ih2⟩ := ih (acc.1, acc.2.1, acc.2.2 + 1)
        simp only [Bool.false_eq_true, if_false, List.length_cons] at ih1 ih2 ⊢
        omega

/-- C10: the accuracy computation of the evaluation summary is total — when
no ticket resolves as correct or incorrect the reported accuracy is 0 rather
than a division by zero, otherwise it is correct / (correct + incorrect) *
100; moreover correct + incorrect counts exactly the resolved tickets and
all three counters sum to the number of tickets. -/
theorem C10_accuracy_total (sim : PyStr → PyStr → Nat) (results : List ResultRecord)
    (tickets : List EvalTicket) (okc badc pendc : Nat)
    (h : evalCounts sim results tickets = (okc, badc, pendc)) :
    (okc + badc = 0 → accuracyOf okc badc = 0) ∧
    (okc + badc ≠ 0 → accuracyOf okc badc = (okc : ℚ) / ((okc : ℚ) + (badc : ℚ)) * 100) ∧
    okc + badc = (tickets.filter (isResolved sim results)).length ∧
    okc + badc + pendc = tickets.length := by
  have hinv := evalCounts_invariant sim results tickets (0, 0, 0)
  rw [show List.foldl (evalCountsStep sim results) (0, 0, 0) tickets =
      evalCounts sim results tickets from rfl, h] at hinv
  obtain ⟨h1, h2⟩ := hinv
  refine ⟨?_, ?_, ?_, ?_⟩
  · intro h0
    simp [accuracyOf, h0]
  · intro hn
    simp [accuracyOf, hn]
  · simpa using h1
  · simpa using h2

/-- C10 (witness): a single unmatched ticket yields counts (0, 0, 1) and a
reported accuracy of 0 rather than a division-by-zero error. -/
theorem C10_witness : accuracyOf 0 0 = 0 :=
  (C10_accuracy_total (fun _ _ => 0) [] [{ matchName := encode "A – B", tip := "1" }]
    0 0 1 (by decide)).1 rfl
